import Mathlib

/-!
Shallow embedding of the DST core logic engine (`scripts/dst-core.js`).

The engine is a pure decision-tree evaluator: a flat list of criteria is
indexed into groups (by `crit` code), an in-group parent/child adjacency
(`clauseChildrenMap`), per-group roots (`groupRoots`, synthesizing a root
when a group has none), and a nearest-ancestor cross-group child index
(`children_by_parent`).  Satisfaction of a node is a recursive boolean
over the user's checked set, combining siblings by their `logic` tags.

Modelling conventions:
* JS string values (`crit` codes, `logic` tags, ids) are Lean `String`s.
  Code-string operations (`length`, `substring`, `slice(0,-1)`) are modelled
  on the underlying character list, which coincides with the JS behaviour
  on the ASCII codes the program uses.
* `parent_clause` is either the empty string or a number in the data; the
  engine treats `''` and `0` identically everywhere, so both are encoded
  as the natural number `0`.
* JS objects used as string-keyed maps become association lists in
  insertion order (JS objects iterate string keys in insertion order).
* The mutable recursion caches (`_satCache`, `_groupSatCache`,
  `_leafCache`) only ever hold values computed from the current state and
  are cleared in full on every mutation, so the cached reads are
  observationally the pure recursive functions; reads are modelled purely
  while the cache fields are carried as state for the frame properties.
* The recursive satisfaction evaluator terminates in JS only because the
  data is acyclic; the embedding makes this explicit with a fuel
  parameter (any fuel larger than the parent-chain depth is enough).
* Change listeners are arbitrary JS callbacks; they are modelled by
  opaque numeric identifiers, and each mutation returns, next to the new
  engine state, the list of notifications `(listener, state observed)` it
  issues, in the order they are issued.
-/

/-- A decision node (one record of `navigation.criteria`), restricted to the
fields the engine logic reads: `crit` (group code), `clause` (in-group
number), `parent_clause` (`0` encodes the empty / zero "no in-group parent"
value), `logic` (sibling combinator tag).  `synthetic` marks nodes the
engine fabricates (`_synthetic` / `_fromOutcome`). -/
structure Criterion where
  crit : String
  clause : Nat
  parent_clause : Nat
  logic : String
  synthetic : Bool := false
  deriving DecidableEq, Repr

/-- A terminal outcome record, restricted to the field the engine reads when
injecting synthetic navigation groups (its optional `logic` tag). -/
structure Outcome where
  logic : Option String := none
  deriving DecidableEq, Repr

/-- The source's `c.crit + '_' + c.clause` — the identity key used by every engine map. -/
def criterionId (c : Criterion) : String :=
  c.crit ++ "_" ++ toString c.clause

/-- JS `s.length` on the ASCII code strings used by the engine. -/
def strLen (s : String) : Nat :=
  s.data.length

/-- JS `s.substring(0, n)` on the ASCII code strings used by the engine. -/
def strTake (s : String) (n : Nat) : String :=
  ⟨s.data.take n⟩

/-- JS `s.slice(0, -1)` on the ASCII code strings used by the engine. -/
def strDropLast (s : String) : String :=
  ⟨s.data.dropLast⟩

/-- Insertion-ordered string-keyed map, looked up by first match (a JS
object never holds a key twice, so first match is exact match). -/
abbrev SMap (α : Type) := List (String × α)

/-- Lookup in an insertion-ordered map. -/
def smLookup {α : Type} (m : SMap α) (k : String) : Option α :=
  match m with
  | [] => none
  | (k', v) :: rest => if k' = k then some v else smLookup rest k

/-- Lookup defaulting to the empty list (JS `m[k] || []`). -/
def smLookupD {α : Type} (m : SMap (List α)) (k : String) : List α :=
  (smLookup m k).getD []

/-- The source's `if (!m[k]) m[k] = []; m[k].push(v)` — append `v` to the entry of `k`,
creating the entry (at the end, in insertion order) when absent. -/
def smPush {α : Type} (m : SMap (List α)) (k : String) (v : α) : SMap (List α) :=
  match m with
  | [] => [(k, [v])]
  | (k', vs) :: rest =>
    if k' = k then (k', vs ++ [v]) :: rest else (k', vs) :: smPush rest k v

/-- The source's `m[k] = v` — replace the entry of `k`, creating it at the end when
absent. -/
def smSet {α : Type} (m : SMap α) (k : String) (v : α) : SMap α :=
  match m with
  | [] => [(k, v)]
  | (k', v') :: rest =>
    if k' = k then (k', v) :: rest else (k', v') :: smSet rest k v

/-- The consecutive same-`logic` run construction of `evaluateSiblingLogic`
(mixed-logic branch): the accumulating loop, carried by the current run. -/
def buildRunsAux (currentLogic : String) (currentItems : List Criterion) :
    List Criterion → List (String × List Criterion)
  | [] => [(currentLogic, currentItems)]
  | s :: rest =>
    if s.logic = currentLogic then
      buildRunsAux currentLogic (currentItems ++ [s]) rest
    else
      (currentLogic, currentItems) :: buildRunsAux s.logic [s] rest

/-- Group consecutive same-logic siblings into runs, preserving order
(`dst-core.js` lines 96–109). -/
def buildRuns : List Criterion → List (String × List Criterion)
  | [] => []
  | s :: rest => buildRunsAux s.logic [s] rest

/-- The source's `engine.evaluateSiblingLogic(siblings, parentLogic)` with the recursive
satisfaction check abstracted as the oracle `sat` (the JS code calls back
into `isClauseSatisfied`).  Uniform fast path first, then run grouping. -/
def evaluateSiblingLogic (sat : Criterion → Bool) (siblings : List Criterion)
    (parentLogic : String) : Bool :=
  let firstLogic := match siblings with
    | [] => parentLogic
    | s :: _ => s.logic
  if siblings.all (fun s => s.logic = firstLogic) then
    if parentLogic = "AND" then siblings.all sat else siblings.any sat
  else
    let runResults := (buildRuns siblings).map (fun run =>
      if run.1 = "AND" then run.2.all sat else run.2.any sat)
    if parentLogic = "AND" then runResults.all id else runResults.any id

/-- The engine state: the structural indices built once at construction,
the mutable checked set, the three caches and the listener registry.
The checked set is the JS `checkedCriteria` object seen through its only
use, truthiness of `checkedCriteria[id]` (checking stores `true`,
unchecking deletes the key). -/
structure Engine where
  allCriteria : List Criterion
  criteriaByCode : SMap (List Criterion)
  clauseChildrenMap : SMap (List Criterion)
  groupRoots : SMap Criterion
  childrenByParent : SMap (List String)
  groupedCodes : List String
  checkedCriteria : String → Bool
  satCache : SMap Bool
  groupSatCache : SMap Bool
  leafCache : SMap Bool
  listeners : List Nat

/-- The source's `engine.isLeafCriterion` — no entry in the in-group adjacency.  (The JS
code memoizes this in `_leafCache`; the cached value always equals this
structural test.) -/
def isLeafCriterion (e : Engine) (c : Criterion) : Bool :=
  (smLookup e.clauseChildrenMap (criterionId c)).isNone

/-- The source's `engine.getClauseChildren` — in-group children, or `[]`. -/
def clauseChildren (e : Engine) (c : Criterion) : List Criterion :=
  smLookupD e.clauseChildrenMap (criterionId c)

/-- The source's `engine.isClauseSatisfied`, with explicit fuel for the recursion that JS
runs on the (acyclic) data.  Leaf: membership in the checked set; internal:
nonempty children combined by `evaluateSiblingLogic` under this node's
`logic`. -/
def isClauseSatisfiedF : Nat → Engine → Criterion → Bool
  | 0, _, _ => false
  | fuel + 1, e, c =>
    if isLeafCriterion e c then
      e.checkedCriteria (criterionId c)
    else
      let children := clauseChildren e c
      decide (0 < children.length) &&
        evaluateSiblingLogic (fun s => isClauseSatisfiedF fuel e s) children c.logic

/-- The source's `engine.isGroupSatisfied` — satisfaction of the group root, `false` when
the code has no group root. -/
def isGroupSatisfiedF (fuel : Nat) (e : Engine) (critCode : String) : Bool :=
  match smLookup e.groupRoots critCode with
  | none => false
  | some root => isClauseSatisfiedF fuel e root

/-- The source's `engine.findCurrentLevel` — scan the group roots in insertion order and
keep the satisfied code of greatest length (first encountered on ties). -/
def findCurrentLevelF (fuel : Nat) (e : Engine) : Option String :=
  e.groupRoots.foldl
    (fun deepest kv =>
      if isGroupSatisfiedF fuel e kv.1 then
        match deepest with
        | none => some kv.1
        | some d => if strLen d < strLen kv.1 then some kv.1 else some d
      else deepest)
    none

/-- The source's `engine.getVisibleGroups`, projected to the codes of the returned
display groups (the labels and member lists attached to each display group
play no role in which groups are returned). -/
def getVisibleGroupsF (fuel : Nat) (e : Engine) : List String :=
  match findCurrentLevelF fuel e with
  | none => e.groupedCodes.filter (fun g => strLen g = 1)
  | some currentCode =>
    let pfxs := (List.range (strLen currentCode)).map (fun i => strTake currentCode (i + 1))
    let childCodes := smLookupD e.childrenByParent currentCode
    e.groupedCodes.filter (fun g => pfxs.contains g || childCodes.contains g)

/-- The source's `engine.getCriterionByCode` — first member of the code's group. -/
def getCriterionByCode (e : Engine) (code : String) : Option Criterion :=
  match smLookup e.criteriaByCode code with
  | none => none
  | some group => group.head?

/-- The source's `engine.getParent` — one-character-shorter code, exact lookup only. -/
def getParent (e : Engine) (code : String) : Option Criterion :=
  if strLen code ≤ 1 then none
  else getCriterionByCode e (strDropLast code)

/-- The source's `engine.getDirectChildren` — resolve the nearest-ancestor child codes,
dropping codes that do not resolve (`filter(Boolean)`). -/
def getDirectChildren (e : Engine) (parentCode : String) : List Criterion :=
  (smLookupD e.childrenByParent parentCode).filterMap (fun code => getCriterionByCode e code)

/-- The source's `engine.getCheckedLeaves` — checked leaves in `(crit, clause)` order. -/
def getCheckedLeaves (e : Engine) : List Criterion :=
  ((e.allCriteria.filter
      (fun c => isLeafCriterion e c && e.checkedCriteria (criterionId c))).mergeSort
    (fun a b => a.crit < b.crit || (a.crit = b.crit && a.clause ≤ b.clause)))

/-- The source's `engine._invalidateCaches` — clear the satisfaction and
group-satisfaction caches in full; the leaf cache is left alone. -/
def invalidateCaches (e : Engine) : Engine :=
  { e with satCache := [], groupSatCache := [] }

/-- The source's `engine._notify` — call every registered listener, in registration
order, passing the engine; modelled as the emitted notification list
`(listener, engine state it observes)`. -/
def notifyAll (e : Engine) : List (Nat × Engine) :=
  e.listeners.map (fun l => (l, e))

/-- The source's `engine.check(id)` — set `checkedCriteria[id] = true`, invalidate the
caches, notify.  Returns the new state and the notifications issued. -/
def check (e : Engine) (id : String) : Engine × List (Nat × Engine) :=
  let e2 := invalidateCaches
    { e with checkedCriteria := fun x => if x = id then true else e.checkedCriteria x }
  (e2, notifyAll e2)

/-- The source's `engine.uncheck(id)` — delete `checkedCriteria[id]`, invalidate the
caches, notify. -/
def uncheck (e : Engine) (id : String) : Engine × List (Nat × Engine) :=
  let e2 := invalidateCaches
    { e with checkedCriteria := fun x => if x = id then false else e.checkedCriteria x }
  (e2, notifyAll e2)

/-- The source's `engine.toggle(id)` — delegate to `uncheck` or `check` by current
truthiness of `checkedCriteria[id]`. -/
def toggle (e : Engine) (id : String) : Engine × List (Nat × Engine) :=
  if e.checkedCriteria id then uncheck e id else check e id

/-- The source's `engine.reset()` — replace the checked set with the empty object,
invalidate the caches, notify. -/
def reset (e : Engine) : Engine × List (Nat × Engine) :=
  let e2 := invalidateCaches { e with checkedCriteria := fun _ => false }
  (e2, notifyAll e2)

/-- The source's `engine.onChange(fn)` — append the listener to the registry (the
returned unsubscribe closure is not needed by any claim). -/
def subscribe (e : Engine) (l : Nat) : Engine :=
  { e with listeners := e.listeners ++ [l] }

/-- The source's `buildIndices` step 1: group all criteria by `crit` in insertion order
(`criteriaByCode`). -/
def groupByCode (cs : List Criterion) : SMap (List Criterion) :=
  cs.foldl (fun m c => smPush m c.crit c) []

/-- The source's `buildIndices` step 2 body: link one criterion to its in-group parent,
when its nonzero `parent_clause` matches a sibling's `clause`. -/
def addClauseChild (byCode : SMap (List Criterion)) (m : SMap (List Criterion))
    (c : Criterion) : SMap (List Criterion) :=
  if c.parent_clause ≠ 0 then
    match (smLookupD byCode c.crit).find? (fun p => p.clause = c.parent_clause) with
    | some p => smPush m (criterionId p) c
    | none => m
  else m

/-- The source's `buildIndices` step 2: the in-group parent→children adjacency
(`clauseChildrenMap`). -/
def buildClauseChildrenMap (byCode : SMap (List Criterion)) (cs : List Criterion) :
    SMap (List Criterion) :=
  cs.foldl (fun m c => addClauseChild byCode m c) []

/-- The synthetic one-member group criterion injected for an outcome code
that has no criterion group. -/
def outcomeCriterion (code : String) (o : Outcome) : Criterion :=
  { crit := code, clause := 1, parent_clause := 0,
    logic := o.logic.getD "FIRST", synthetic := true }

/-- The source's `buildIndices` step 3: inject outcome codes as synthetic nav groups,
skipping codes that already have a group.  Acts on the pair
`(allCriteria, criteriaByCode)`. -/
def injectOutcomes (acc : List Criterion × SMap (List Criterion))
    (outcomes : List (String × Outcome)) : List Criterion × SMap (List Criterion) :=
  outcomes.foldl
    (fun acc kv =>
      if (smLookup acc.2 kv.1).isSome then acc
      else
        let syn := outcomeCriterion kv.1 kv.2
        (acc.1 ++ [syn], acc.2 ++ [(kv.1, [syn])]))
    acc

/-- The source's `buildIndices` step 4a: explicit group roots — the first member of each
group whose `parent_clause` is empty/zero, in scan order. -/
def buildGroupRoots (allCrit : List Criterion) : SMap Criterion :=
  allCrit.foldl
    (fun roots c =>
      if c.parent_clause = 0 && (smLookup roots c.crit).isNone then
        roots ++ [(c.crit, c)]
      else roots)
    []

/-- The synthetic root fabricated for a rootless group: clause `0`, logic
inferred from the first top-level member (default `"OR"`). -/
def syntheticRoot (code : String) (topLevel : List Criterion) : Criterion :=
  { crit := code, clause := 0, parent_clause := 0,
    logic := match topLevel with | [] => "OR" | t :: _ => t.logic,
    synthetic := true }

/-- The top-level members of a rootless group: those whose `parent_clause`
matches no in-group clause (`clausesInGroup` check of `buildIndices`). -/
def groupTopLevel (items : List Criterion) : List Criterion :=
  items.filter (fun c => !((items.map (fun p => p.clause)).contains c.parent_clause))

/-- The source's `buildIndices` step 4b: for each group (in `criteriaByCode` order) still
without a root, append a synthetic root whose children are the members
whose `parent_clause` matches no in-group clause.  Acts on the pair
`(groupRoots, clauseChildrenMap)`. -/
def addSyntheticRoots (byCode : SMap (List Criterion))
    (acc : SMap Criterion × SMap (List Criterion)) : SMap Criterion × SMap (List Criterion) :=
  byCode.foldl
    (fun acc kv =>
      if (smLookup acc.1 kv.1).isSome then acc
      else
        let topLevel := groupTopLevel kv.2
        let root := syntheticRoot kv.1 topLevel
        (acc.1 ++ [(kv.1, root)], smSet acc.2 (criterionId root) topLevel))
    acc

/-- The nearest-ancestor walk of `buildIndices` step 5: starting from the
one-shorter code, drop trailing characters until an existing code is
reached (fuel = the string length bounds the walk, as in JS). -/
def ancestorWalk (codes : List String) : Nat → String → String
  | 0, s => s
  | n + 1, s =>
    if 0 < strLen s && !(codes.contains s) then ancestorWalk codes n (strDropLast s)
    else s

/-- The source's `buildIndices` step 5: the nearest-ancestor cross-group child index
(`indices.children_by_parent`), keyed `"root"` for top-level codes. -/
def buildChildrenByParent (allCodes : List String) : SMap (List String) :=
  allCodes.foldl
    (fun m c =>
      if strLen c ≤ 1 then smPush m "root" c
      else
        let ancestor := ancestorWalk allCodes (strLen c) (strDropLast c)
        let p := if strLen ancestor = 0 then "root" else ancestor
        smPush m p c)
    [("root", [])]

/-- Ordered first occurrences of the display-group codes over the criterion
scan (`groups` insertion order), empty `crit` grouped as `"Other"`. -/
def displayCodesInOrder (allCrit : List Criterion) : List String :=
  allCrit.foldl
    (fun acc c =>
      let code := if c.crit = "" then "Other" else c.crit
      if acc.contains code then acc else acc ++ [code])
    []

/-- The display-group sort: code length ascending, then lexicographic. -/
def insertCodeSorted (code : String) : List String → List String
  | [] => [code]
  | x :: rest =>
    if strLen code < strLen x || (strLen code = strLen x && code ≤ x) then
      code :: x :: rest
    else x :: insertCodeSorted code rest

/-- The source's `buildIndices` step 6 (`groupedCriteria`), projected to codes: distinct
display codes sorted by length then lexicographically. -/
def buildGroupedCodes (allCrit : List Criterion) : List String :=
  (displayCodesInOrder allCrit).foldr insertCodeSorted []

/-- The source's `DSTCore.create(data).buildIndices()` over a criterion list and an
outcome map: the whole index construction, with the empty checked set,
empty caches and no listeners. -/
def create (cs : List Criterion) (outcomes : List (String × Outcome)) : Engine :=
  let byCode0 := groupByCode cs
  let ccm0 := buildClauseChildrenMap byCode0 cs
  let injected := injectOutcomes (cs, byCode0) outcomes
  let allCrit := injected.1
  let byCode := injected.2
  let roots0 := buildGroupRoots allCrit
  let rootsAndMap := addSyntheticRoots byCode (roots0, ccm0)
  { allCriteria := allCrit
    criteriaByCode := byCode
    clauseChildrenMap := rootsAndMap.2
    groupRoots := rootsAndMap.1
    childrenByParent := buildChildrenByParent (byCode.map (fun kv => kv.1))
    groupedCodes := buildGroupedCodes allCrit
    checkedCriteria := fun _ => false
    satCache := []
    groupSatCache := []
    leafCache := []
    listeners := [] }

/-! ### Concrete fixtures used by counterexamples and witnesses -/

/-- Group `A`: an explicit root with `logic = "OR"` whose two children both
carry `logic = "AND"` (a uniform sibling set differing from the parent's
combinator). -/
def uniformFixture : List Criterion :=
  [⟨"A", 1, 0, "OR", false⟩, ⟨"A", 2, 1, "AND", false⟩, ⟨"A", 3, 1, "AND", false⟩]

/-- The `uniformFixture` engine with only the first child checked. -/
def uniformEngine : Engine := (check (create uniformFixture []) "A_2").1

/-- Group `M`: an AND root whose children carry `[AND, AND, OR, OR]`. -/
def mixedFixture : List Criterion :=
  [⟨"M", 1, 0, "AND", false⟩, ⟨"M", 2, 1, "AND", false⟩, ⟨"M", 3, 1, "AND", false⟩,
   ⟨"M", 4, 1, "OR", false⟩, ⟨"M", 5, 1, "OR", false⟩]

/-- Fixture `mixedFixture` with both AND children checked and neither OR child. -/
def mixedEngineAB : Engine := (check (check (create mixedFixture []) "M_2").1 "M_3").1

/-- Fixture `mixedFixture` with both AND children and the first OR child checked. -/
def mixedEngineABC : Engine := (check mixedEngineAB "M_4").1

/-- Fixture `mixedFixture` with only the two OR children checked. -/
def mixedEngineCD : Engine := (check (check (create mixedFixture []) "M_4").1 "M_5").1

/-- Three single-criterion groups `A`, `AA`, `AAA`, all leaves. -/
def deepFixture : List Criterion :=
  [⟨"A", 1, 0, "OR", false⟩, ⟨"AA", 1, 0, "OR", false⟩, ⟨"AAA", 1, 0, "OR", false⟩]

/-- Fixture `deepFixture` with all three roots checked (all groups satisfied). -/
def deepEngine : Engine :=
  (check (check (check (create deepFixture []) "A_1").1 "AA_1").1 "AAA_1").1

/-- Two single-criterion groups `A` and `AAA`; the intermediate code `AA`
exists in no group. -/
def gapFixture : List Criterion :=
  [⟨"A", 1, 0, "OR", false⟩, ⟨"AAA", 1, 0, "OR", false⟩]

/-- Fixture `gapFixture` with the `AAA` root checked (deepest satisfied = `AAA`). -/
def gapEngine : Engine := (check (create gapFixture []) "AAA_1").1

/-- Group `A` with an explicit root (clause 1) and a second member whose
`parent_clause` (99) matches no clause of the group. -/
def orphanFixture : List Criterion :=
  [⟨"A", 1, 0, "OR", false⟩, ⟨"A", 2, 99, "OR", false⟩]

/-- Group `B` with no explicit root: every member carries a nonzero
`parent_clause`, and clause 3's reference (99) matches no clause. -/
def rootlessFixture : List Criterion :=
  [⟨"B", 1, 5, "OR", false⟩, ⟨"B", 2, 1, "AND", false⟩, ⟨"B", 3, 99, "OR", false⟩]

/-- Group `C` whose two members reference each other, so the synthesized
root resolves zero children (`clauseChildrenMap["C_0"] = []`). -/
def cyclicFixture : List Criterion :=
  [⟨"C", 1, 2, "OR", false⟩, ⟨"C", 2, 1, "OR", false⟩]

/-- The `cyclicFixture` engine with both members checked. -/
def cyclicEngine : Engine :=
  (check (check (create cyclicFixture []) "C_1").1 "C_2").1

/-- The accumulator step of `findCurrentLevel`, abstracted over the group
satisfaction test. -/
def deepestStep (sat : String → Bool) (deepest : Option String)
    (kv : String × Criterion) : Option String :=
  if sat kv.1 then
    match deepest with
    | none => some kv.1
    | some d => if strLen d < strLen kv.1 then some kv.1 else some d
  else deepest

/-- The candidate kept by one satisfied `findCurrentLevel` step: the new
code, unless the accumulator already holds a strictly longer one. -/
def stepCand (kv1 : String) (acc : Option String) : String :=
  match acc with
  | none => kv1
  | some d => if strLen d < strLen kv1 then kv1 else d

/-! ### Basic lemmas about the insertion-ordered maps -/

theorem smLookup_append {α : Type} (m m' : SMap α) (k : String) :
    smLookup (m ++ m') k = match smLookup m k with
      | some v => some v
      | none => smLookup m' k := by
  induction m with
  | nil => simp [smLookup]
  | cons kv rest ih =>
    by_cases h : kv.1 = k
    · simp [smLookup, h]
    · simp [smLookup, h, ih]

theorem smLookup_smPush {α : Type} (m : SMap (List α)) (k k' : String) (v : α) :
    smLookup (smPush m k v) k' =
      if k' = k then some ((smLookup m k).getD [] ++ [v]) else smLookup m k' := by
  induction m with
  | nil =>
    by_cases h : k' = k
    · subst h; simp [smPush, smLookup]
    · have h2 : ¬ k = k' := fun hk => h hk.symm
      simp [smPush, smLookup, h, h2]
  | cons kv rest ih =>
    by_cases h1 : kv.1 = k
    · subst h1
      by_cases h2 : k' = kv.1
      · subst h2; simp [smPush, smLookup]
      · have h3 : ¬ kv.1 = k' := fun hk => h2 hk.symm
        simp [smPush, smLookup, h2, h3]
    · by_cases h2 : kv.1 = k'
      · have h3 : ¬ k' = k := fun hk => h1 (h2.trans hk)
        simp [smPush, h1, smLookup, h2, h3]
      · simp [smPush, h1, smLookup, h2, ih]

theorem smLookup_smSet {α : Type} (m : SMap α) (k k' : String) (v : α) :
    smLookup (smSet m k v) k' = if k' = k then some v else smLookup m k' := by
  induction m with
  | nil =>
    by_cases h : k' = k
    · subst h; simp [smSet, smLookup]
    · have h2 : ¬ k = k' := fun hk => h hk.symm
      simp [smSet, smLookup, h, h2]
  | cons kv rest ih =>
    by_cases h1 : kv.1 = k
    · subst h1
      by_cases h2 : k' = kv.1
      · subst h2; simp [smSet, smLookup]
      · have h3 : ¬ kv.1 = k' := fun hk => h2 hk.symm
        simp [smSet, smLookup, h2, h3]
    · by_cases h2 : kv.1 = k'
      · have h3 : ¬ k' = k := fun hk => h1 (h2.trans hk)
        simp [smSet, h1, smLookup, h2, h3]
      · simp [smSet, h1, smLookup, h2, ih]

theorem smLookup_eq_none_of_append {α : Type} (m m' : SMap α) (k : String)
    (h : smLookup (m ++ m') k = none) : smLookup m k = none := by
  rw [smLookup_append] at h
  revert h
  cases smLookup m k <;> simp

theorem smLookup_mem {α : Type} (m : SMap α) (k : String) (v : α)
    (h : smLookup m k = some v) : (k, v) ∈ m := by
  induction m with
  | nil => simp [smLookup] at h
  | cons kv rest ih =>
    obtain ⟨k1, v1⟩ := kv
    by_cases hk : k1 = k
    · simp [smLookup, hk] at h
      simp [hk, h]
    · simp only [smLookup, hk, if_false] at h
      exact List.mem_cons_of_mem _ (ih h)

/-! ### Run construction lemmas (the mixed-logic partition) -/

theorem buildRunsAux_join (rest : List Criterion) :
    ∀ (cl : String) (ci : List Criterion),
      ((buildRunsAux cl ci rest).map Prod.snd).flatten = ci ++ rest := by
  induction rest with
  | nil => intro cl ci; simp [buildRunsAux]
  | cons s rest ih =>
    intro cl ci
    by_cases h : s.logic = cl
    · simp [buildRunsAux, h, ih]
    · simp [buildRunsAux, h, ih]

theorem buildRuns_join (siblings : List Criterion) :
    ((buildRuns siblings).map Prod.snd).flatten = siblings := by
  cases siblings with
  | nil => simp [buildRuns]
  | cons s rest => simp [buildRuns, buildRunsAux_join]

theorem buildRunsAux_uniform (rest : List Criterion) :
    ∀ (cl : String) (ci : List Criterion), ci ≠ [] → (∀ x ∈ ci, x.logic = cl) →
      ∀ r ∈ buildRunsAux cl ci rest, r.2 ≠ [] ∧ ∀ x ∈ r.2, x.logic = r.1 := by
  induction rest with
  | nil =>
    intro cl ci hne huni r hr
    simp [buildRunsAux] at hr
    subst hr
    exact ⟨hne, huni⟩
  | cons s rest ih =>
    intro cl ci hne huni r hr
    by_cases h : s.logic = cl
    · rw [buildRunsAux, if_pos h] at hr
      refine ih cl (ci ++ [s]) (by simp) ?_ r hr
      intro x hx
      rcases List.mem_append.mp hx with hx | hx
      · exact huni x hx
      · simp at hx; rw [hx, h]
    · rw [buildRunsAux, if_neg h] at hr
      rcases List.mem_cons.mp hr with hr | hr
      · subst hr; exact ⟨hne, huni⟩
      · exact ih s.logic [s] (by simp) (by simp) r hr

theorem buildRuns_uniform (siblings : List Criterion) :
    ∀ r ∈ buildRuns siblings, r.2 ≠ [] ∧ ∀ x ∈ r.2, x.logic = r.1 := by
  cases siblings with
  | nil => simp [buildRuns]
  | cons s rest =>
    exact buildRunsAux_uniform rest s.logic [s] (by simp) (by simp)

theorem buildRunsAux_head (rest : List Criterion) :
    ∀ (cl : String) (ci : List Criterion),
      ∃ t tail, buildRunsAux cl ci rest = (cl, t) :: tail := by
  induction rest with
  | nil => intro cl ci; exact ⟨ci, [], rfl⟩
  | cons s rest ih =>
    intro cl ci
    by_cases h : s.logic = cl
    · rw [buildRunsAux, if_pos h]; exact ih cl (ci ++ [s])
    · rw [buildRunsAux, if_neg h]
      exact ⟨ci, buildRunsAux s.logic [s] rest, rfl⟩

theorem buildRunsAux_chain (rest : List Criterion) :
    ∀ (cl : String) (ci : List Criterion),
      List.Chain' (fun a b => a.1 ≠ b.1) (buildRunsAux cl ci rest) := by
  induction rest with
  | nil => intro cl ci; simp [buildRunsAux]
  | cons s rest ih =>
    intro cl ci
    by_cases h : s.logic = cl
    · rw [buildRunsAux, if_pos h]; exact ih cl (ci ++ [s])
    · rw [buildRunsAux, if_neg h]
      obtain ⟨t, tail, ht⟩ := buildRunsAux_head rest s.logic [s]
      rw [ht]
      refine List.Chain'.cons ?_ (ht ▸ ih s.logic [s])
      exact fun hcl => h hcl.symm

/-- The mixed-logic run partition is maximal: adjacent runs never share a
logic tag. -/
theorem buildRuns_chain (siblings : List Criterion) :
    List.Chain' (fun a b => a.1 ≠ b.1) (buildRuns siblings) := by
  cases siblings with
  | nil => simp [buildRuns]
  | cons s rest => exact buildRunsAux_chain rest s.logic [s]

/-! ### Unfolding lemmas for the satisfaction evaluator -/

theorem isClauseSatisfiedF_internal (fuel : Nat) (e : Engine) (c : Criterion)
    (children : List Criterion)
    (h : smLookup e.clauseChildrenMap (criterionId c) = some children) :
    isClauseSatisfiedF (fuel + 1) e c =
      (decide (0 < children.length) &&
        evaluateSiblingLogic (fun s => isClauseSatisfiedF fuel e s) children c.logic) := by
  have hleaf : isLeafCriterion e c = false := by
    simp [isLeafCriterion, h]
  have hch : clauseChildren e c = children := by
    simp [clauseChildren, smLookupD, h]
  simp only [isClauseSatisfiedF, hleaf, Bool.false_eq_true, if_false, hch]

theorem evaluateSiblingLogic_uniform (sat : Criterion → Bool)
    (siblings : List Criterion) (parentLogic L : String)
    (hne : siblings ≠ []) (huni : ∀ s ∈ siblings, s.logic = L) :
    evaluateSiblingLogic sat siblings parentLogic =
      if parentLogic = "AND" then siblings.all sat else siblings.any sat := by
  obtain ⟨s0, rest, rfl⟩ := List.exists_cons_of_ne_nil hne
  have hall : ((s0 :: rest).all fun s => decide (s.logic = s0.logic)) = true := by
    rw [List.all_eq_true]
    intro s hs
    rw [decide_eq_true_eq, huni s hs, huni s0 (List.mem_cons_self s0 rest)]
  simp only [evaluateSiblingLogic, hall, if_true]

/-! ### C1 — uniform-sibling combination -/

/-- C1 (amended): for an internal node whose children all carry the identical
combinator, `isSatisfied` is decided by the *parent node's own* combinator:
a conjunctive parent requires every child satisfied, any other parent
combinator requires at least one child satisfied — regardless of the shared
child combinator. -/
theorem c1_uniform_siblings_follow_parent_combinator
    (fuel : Nat) (e : Engine) (c : Criterion) (children : List Criterion) (L : String)
    (h : smLookup e.clauseChildrenMap (criterionId c) = some children)
    (hne : children ≠ [])
    (huni : ∀ s ∈ children, s.logic = L) :
    isClauseSatisfiedF (fuel + 1) e c =
      if c.logic = "AND" then children.all (isClauseSatisfiedF fuel e)
      else children.any (isClauseSatisfiedF fuel e) := by
  rw [isClauseSatisfiedF_internal fuel e c children h]
  rw [evaluateSiblingLogic_uniform _ children c.logic L hne huni]
  have hlen : decide (0 < children.length) = true := by
    rw [decide_eq_true_eq]
    exact List.length_pos.mpr hne
  rw [hlen, Bool.true_and]

/-- C1 counterexample: in `uniformEngine` the root's children are a uniform
AND-combinator pair of which only one is satisfied, yet the root (whose own
combinator is `"OR"`) evaluates to `true`; the claim ("decided by the shared
combinator regardless of the parent's") predicts `false` here. -/
theorem c1_shared_combinator_counterexample :
    clauseChildren uniformEngine ⟨"A", 1, 0, "OR", false⟩ =
      [⟨"A", 2, 1, "AND", false⟩, ⟨"A", 3, 1, "AND", false⟩] ∧
    (∀ s ∈ clauseChildren uniformEngine ⟨"A", 1, 0, "OR", false⟩, s.logic = "AND") ∧
    isClauseSatisfiedF 3 uniformEngine ⟨"A", 3, 1, "AND", false⟩ = false ∧
    isClauseSatisfiedF 3 uniformEngine ⟨"A", 1, 0, "OR", false⟩ = true := by
  refine ⟨by decide, by decide, by decide, by decide⟩

/-- C1 witness: the amended theorem applied to `uniformEngine`'s root — with
an `"OR"` parent over uniform-`"AND"` children the node evaluates as the
disjunction of its children. -/
theorem c1_uniform_siblings_follow_parent_combinator_witness :
    isClauseSatisfiedF 3 uniformEngine ⟨"A", 1, 0, "OR", false⟩ =
      List.any [⟨"A", 2, 1, "AND", false⟩, ⟨"A", 3, 1, "AND", false⟩]
        (isClauseSatisfiedF 2 uniformEngine) := by
  have h := c1_uniform_siblings_follow_parent_combinator 2 uniformEngine
    ⟨"A", 1, 0, "OR", false⟩ [⟨"A", 2, 1, "AND", false⟩, ⟨"A", 3, 1, "AND", false⟩]
    "AND" (by decide) (by decide) (by decide)
  rw [h, if_neg (by decide)]

/-! ### C2 — mixed-sibling run partition -/

theorem evaluateSiblingLogic_mixed (sat : Criterion → Bool)
    (siblings : List Criterion) (parentLogic : String)
    (s1 s2 : Criterion) (hs1 : s1 ∈ siblings) (hs2 : s2 ∈ siblings)
    (hdiff : s1.logic ≠ s2.logic) :
    evaluateSiblingLogic sat siblings parentLogic =
      (let runResults := (buildRuns siblings).map (fun run =>
         if run.1 = "AND" then run.2.all sat else run.2.any sat)
       if parentLogic = "AND" then runResults.all id else runResults.any id) := by
  obtain ⟨s0, rest, rfl⟩ := List.exists_cons_of_ne_nil (List.ne_nil_of_mem hs1)
  have hall : ¬ (((s0 :: rest).all fun s => decide (s.logic = s0.logic)) = true) := by
    rw [List.all_eq_true]
    intro hcontra
    have h1 := hcontra s1 hs1
    have h2 := hcontra s2 hs2
    rw [decide_eq_true_eq] at h1 h2
    exact hdiff (h1.trans h2.symm)
  simp only [evaluateSiblingLogic, hall, if_false]
  rfl

/-- C2: for an internal node whose children carry at least two distinct
combinators, the children are partitioned, in original order, into maximal
runs of consecutive same-combinator children (the runs flatten back to the
child list, every run is nonempty and uniform, and adjacent runs differ);
each run evaluates by its own combinator (AND run: all satisfied, other
runs: at least one satisfied) and the per-run results combine by the parent
node's own combinator. -/
theorem c2_mixed_siblings_run_partition
    (fuel : Nat) (e : Engine) (c : Criterion) (children : List Criterion)
    (h : smLookup e.clauseChildrenMap (criterionId c) = some children)
    (s1 s2 : Criterion) (hs1 : s1 ∈ children) (hs2 : s2 ∈ children)
    (hdiff : s1.logic ≠ s2.logic) :
    ((buildRuns children).map Prod.snd).flatten = children ∧
    (∀ r ∈ buildRuns children, r.2 ≠ [] ∧ ∀ x ∈ r.2, x.logic = r.1) ∧
    List.Chain' (fun a b => a.1 ≠ b.1) (buildRuns children) ∧
    isClauseSatisfiedF (fuel + 1) e c =
      (let runResults := (buildRuns children).map (fun run =>
         if run.1 = "AND" then run.2.all (isClauseSatisfiedF fuel e)
         else run.2.any (isClauseSatisfiedF fuel e))
       if c.logic = "AND" then runResults.all id else runResults.any id) := by
  refine ⟨buildRuns_join children, buildRuns_uniform children, buildRuns_chain children, ?_⟩
  rw [isClauseSatisfiedF_internal fuel e c children h]
  rw [evaluateSiblingLogic_mixed _ children c.logic s1 s2 hs1 hs2 hdiff]
  have hlen : decide (0 < children.length) = true := by
    rw [decide_eq_true_eq]
    exact List.length_pos.mpr (List.ne_nil_of_mem hs1)
  rw [hlen, Bool.true_and]

/-- C2 witness: the run-partition theorem applied to the `[AND, AND, OR, OR]`
children of the AND root of `mixedFixture`, together with the three scenario
evaluations from the claim: both AND children alone — false; both AND
children plus one OR child — true; only the OR children — false. -/
theorem c2_mixed_siblings_run_partition_witness :
    isClauseSatisfiedF 3 mixedEngineAB ⟨"M", 1, 0, "AND", false⟩ = false ∧
    isClauseSatisfiedF 3 mixedEngineABC ⟨"M", 1, 0, "AND", false⟩ = true ∧
    isClauseSatisfiedF 3 mixedEngineCD ⟨"M", 1, 0, "AND", false⟩ = false := by
  have h := c2_mixed_siblings_run_partition 2 mixedEngineAB ⟨"M", 1, 0, "AND", false⟩
    [⟨"M", 2, 1, "AND", false⟩, ⟨"M", 3, 1, "AND", false⟩,
     ⟨"M", 4, 1, "OR", false⟩, ⟨"M", 5, 1, "OR", false⟩]
    (by decide) ⟨"M", 2, 1, "AND", false⟩ ⟨"M", 4, 1, "OR", false⟩
    (by decide) (by decide) (by decide)
  refine ⟨?_, by decide, by decide⟩
  rw [h.2.2.2]
  decide

/-! ### C3 — leaves and childless internal nodes -/

/-- C3: a leaf criterion (no entry in the parent→children adjacency) is
satisfied iff its identity is checked in the Selection Set, unchecking a
leaf always makes it evaluate `false`, and an internal node resolving zero
children is never satisfied. -/
theorem c3_leaf_membership_and_childless_internal
    (fuel : Nat) (e : Engine) (c : Criterion) :
    (smLookup e.clauseChildrenMap (criterionId c) = none →
      isClauseSatisfiedF (fuel + 1) e c = e.checkedCriteria (criterionId c)) ∧
    (smLookup e.clauseChildrenMap (criterionId c) = none →
      isClauseSatisfiedF (fuel + 1) (uncheck e (criterionId c)).1 c = false) ∧
    (smLookup e.clauseChildrenMap (criterionId c) = some [] →
      isClauseSatisfiedF (fuel + 1) e c = false) := by
  refine ⟨?_, ?_, ?_⟩
  · intro h
    have hleaf : isLeafCriterion e c = true := by
      simp [isLeafCriterion, h]
    simp [isClauseSatisfiedF, hleaf]
  · intro h
    have hleaf : isLeafCriterion (uncheck e (criterionId c)).1 c = true := by
      simp [isLeafCriterion, uncheck, invalidateCaches, h]
    simp only [isClauseSatisfiedF, hleaf, if_true]
    simp [uncheck, invalidateCaches]
  · intro h
    rw [isClauseSatisfiedF_internal fuel e c [] h]
    simp

/-- C3 witness: in `uniformEngine` the checked leaf `A_2` is satisfied and
becomes unsatisfied after unchecking; in `cyclicEngine` the synthesized
root resolves zero children and is unsatisfied with every member checked. -/
theorem c3_leaf_membership_and_childless_internal_witness :
    isClauseSatisfiedF 2 uniformEngine ⟨"A", 2, 1, "AND", false⟩ = true ∧
    isClauseSatisfiedF 2 (uncheck uniformEngine "A_2").1 ⟨"A", 2, 1, "AND", false⟩ = false ∧
    isClauseSatisfiedF 2 cyclicEngine ⟨"C", 0, 0, "OR", true⟩ = false := by
  refine ⟨?_, ?_, ?_⟩
  · rw [(c3_leaf_membership_and_childless_internal 1 uniformEngine
      ⟨"A", 2, 1, "AND", false⟩).1 (by decide)]
    decide
  · exact (c3_leaf_membership_and_childless_internal 1 uniformEngine
      ⟨"A", 2, 1, "AND", false⟩).2.1 (by decide)
  · exact (c3_leaf_membership_and_childless_internal 1 cyclicEngine
      ⟨"C", 0, 0, "OR", true⟩).2.2 (by decide)

/-! ### C4 — group satisfaction through the root -/

/-- C4: `isGroupSatisfied(code)` equals `isSatisfied` of the group root
found for `code`, and is `false` (with no fault — the function is total)
when no group root exists for `code`. -/
theorem c4_group_satisfaction_via_root (fuel : Nat) (e : Engine) (code : String) :
    (∀ root, smLookup e.groupRoots code = some root →
      isGroupSatisfiedF fuel e code = isClauseSatisfiedF fuel e root) ∧
    (smLookup e.groupRoots code = none → isGroupSatisfiedF fuel e code = false) := by
  constructor
  · intro root h
    simp [isGroupSatisfiedF, h]
  · intro h
    simp [isGroupSatisfiedF, h]

/-- C4 witness: in `deepEngine`, `isGroupSatisfied "AAA"` is the root's own
satisfaction, and the groupless code `"ZZ"` evaluates `false`. -/
theorem c4_group_satisfaction_via_root_witness :
    isGroupSatisfiedF 2 deepEngine "AAA" =
      isClauseSatisfiedF 2 deepEngine ⟨"AAA", 1, 0, "OR", false⟩ ∧
    isGroupSatisfiedF 2 deepEngine "ZZ" = false := by
  exact ⟨(c4_group_satisfaction_via_root 2 deepEngine "AAA").1
      ⟨"AAA", 1, 0, "OR", false⟩ (by decide),
    (c4_group_satisfaction_via_root 2 deepEngine "ZZ").2 (by decide)⟩

/-! ### C5 — deepest satisfied code -/

theorem findCurrentLevelF_eq_fold (fuel : Nat) (e : Engine) :
    findCurrentLevelF fuel e =
      e.groupRoots.foldl (deepestStep (fun code => isGroupSatisfiedF fuel e code)) none := rfl

theorem deepestStep_none (sat : String → Bool) (kv : String × Criterion) :
    deepestStep sat none kv = if sat kv.1 then some kv.1 else none := by
  unfold deepestStep
  by_cases h : sat kv.1 <;> simp [h]

theorem deepestStep_some (sat : String → Bool) (d : String) (kv : String × Criterion) :
    deepestStep sat (some d) kv =
      if sat kv.1 then (if strLen d < strLen kv.1 then some kv.1 else some d)
      else some d := by
  unfold deepestStep
  by_cases h : sat kv.1 <;> simp [h]

theorem deepestStep_fold (sat : String → Bool) :
    ∀ (l : List (String × Criterion)) (acc : Option String),
      (∀ d, acc = some d → sat d = true) →
      ((l.foldl (deepestStep sat) acc = none →
          acc = none ∧ ∀ kv ∈ l, sat kv.1 = false) ∧
       (∀ c, l.foldl (deepestStep sat) acc = some c →
          (acc = some c ∨ ∃ kv ∈ l, kv.1 = c) ∧ sat c = true ∧
          (∀ d, acc = some d → strLen d ≤ strLen c) ∧
          (∀ kv ∈ l, sat kv.1 = true → strLen kv.1 ≤ strLen c))) := by
  intro l
  induction l with
  | nil =>
    intro acc hpre
    refine ⟨fun h => ⟨h, by simp⟩, fun c hc => ⟨Or.inl hc, hpre c hc, ?_, by simp⟩⟩
    intro d hd
    rw [hd] at hc
    cases hc
    exact le_refl _
  | cons kv rest ih =>
    intro acc hpre
    by_cases hsat : sat kv.1
    · -- the head is satisfied: the accumulator becomes `kv.1` or keeps a
      -- longer previous candidate
      have hstep : deepestStep sat acc kv = some (stepCand kv.1 acc) := by
        cases acc with
        | none => rw [deepestStep_none, if_pos hsat]; rfl
        | some d =>
          rw [deepestStep_some, if_pos hsat]
          by_cases hlt : strLen d < strLen kv.1 <;> simp [hlt, stepCand]
      have hkvle : strLen kv.1 ≤ strLen (stepCand kv.1 acc) := by
        cases acc with
        | none => exact le_refl _
        | some d =>
          by_cases hlt : strLen d < strLen kv.1
          · simp [stepCand, hlt]
          · simp only [stepCand, hlt, if_false]
            exact Nat.le_of_not_lt hlt
      have haccle0 : ∀ d, acc = some d → strLen d ≤ strLen (stepCand kv.1 acc) := by
        intro d hd
        subst hd
        by_cases hlt : strLen d < strLen kv.1
        · simp only [stepCand, hlt, if_true]
          exact Nat.le_of_lt hlt
        · simp [stepCand, hlt]
      have hfromold : ∀ x, stepCand kv.1 acc = x → x = kv.1 ∨ acc = some x := by
        intro x hx
        cases acc with
        | none => exact Or.inl hx.symm
        | some d =>
          by_cases hlt : strLen d < strLen kv.1
          · simp only [stepCand, hlt, if_true] at hx
            exact Or.inl hx.symm
          · simp only [stepCand, hlt, if_false] at hx
            exact Or.inr (by rw [hx])
      have hpre' : ∀ d, deepestStep sat acc kv = some d → sat d = true := by
        intro d hd
        rw [hstep] at hd
        cases hd
        rcases hfromold _ rfl with h' | h'
        · rw [h']; exact hsat
        · exact hpre _ h'
      have IH := ih (deepestStep sat acc kv) hpre'
      constructor
      · intro h
        rw [List.foldl_cons] at h
        obtain ⟨hacc', _⟩ := IH.1 h
        rw [hstep] at hacc'
        cases hacc'
      · intro c hc
        rw [List.foldl_cons] at hc
        obtain ⟨horig, hsatc, haccle, hrestle⟩ := IH.2 c hc
        refine ⟨?_, hsatc, ?_, ?_⟩
        · rcases horig with h' | h'
          · rw [hstep] at h'
            injection h' with h'
            rcases hfromold c h' with h'' | h''
            · exact Or.inr ⟨kv, List.mem_cons_self kv rest, h''.symm⟩
            · exact Or.inl h''
          · obtain ⟨kv', hkv', hkvc⟩ := h'
            exact Or.inr ⟨kv', List.mem_cons_of_mem kv hkv', hkvc⟩
        · intro d hd
          have h1 := haccle0 d hd
          have h2 := haccle _ hstep
          exact le_trans h1 h2
        · intro kv' hkv' hkvsat
          rcases List.mem_cons.mp hkv' with h' | h'
          · rw [h']
            exact le_trans hkvle (haccle _ hstep)
          · exact hrestle kv' h' hkvsat
    · -- the head is not satisfied: the accumulator passes through
      have hstep : deepestStep sat acc kv = acc := by
        cases acc with
        | none => rw [deepestStep_none, if_neg hsat]
        | some d => rw [deepestStep_some, if_neg hsat]
      have IH := ih (deepestStep sat acc kv) (by rw [hstep]; exact hpre)
      constructor
      · intro h
        rw [List.foldl_cons] at h
        obtain ⟨hacc', hrest⟩ := IH.1 h
        rw [hstep] at hacc'
        refine ⟨hacc', ?_⟩
        intro kv' hkv'
        rcases List.mem_cons.mp hkv' with h' | h'
        · rw [h']
          exact Bool.eq_false_iff.mpr hsat
        · exact hrest kv' h'
      · intro c hc
        rw [List.foldl_cons] at hc
        obtain ⟨horig, hsatc, haccle, hrestle⟩ := IH.2 c hc
        rw [hstep] at horig haccle
        refine ⟨?_, hsatc, haccle, ?_⟩
        · rcases horig with h' | h'
          · exact Or.inl h'
          · obtain ⟨kv', hkv', hkvc⟩ := h'
            exact Or.inr ⟨kv', List.mem_cons_of_mem kv hkv', hkvc⟩
        · intro kv' hkv' hkvsat
          rcases List.mem_cons.mp hkv' with h' | h'
          · exfalso
            rw [h'] at hkvsat
            exact hsat hkvsat
          · exact hrestle kv' h' hkvsat

/-- C5: when `findCurrentLevel` returns no code, no group is satisfied;
when it returns a code, that code is a group code whose group is satisfied
and whose length is greatest among all satisfied group codes. -/
theorem c5_deepest_satisfied_code (fuel : Nat) (e : Engine) :
    (findCurrentLevelF fuel e = none →
      ∀ kv ∈ e.groupRoots, isGroupSatisfiedF fuel e kv.1 = false) ∧
    (∀ c, findCurrentLevelF fuel e = some c →
      (∃ kv ∈ e.groupRoots, kv.1 = c) ∧
      isGroupSatisfiedF fuel e c = true ∧
      ∀ kv ∈ e.groupRoots, isGroupSatisfiedF fuel e kv.1 = true →
        strLen kv.1 ≤ strLen c) := by
  have h := deepestStep_fold (fun code => isGroupSatisfiedF fuel e code)
    e.groupRoots none (by intro d hd; cases hd)
  rw [findCurrentLevelF_eq_fold]
  constructor
  · intro hn
    exact (h.1 hn).2
  · intro c hc
    obtain ⟨horig, hsat, _, hle⟩ := h.2 c hc
    refine ⟨?_, hsat, hle⟩
    rcases horig with h' | h'
    · cases h'
    · exact h'

/-- C5 witness: in `deepEngine` the codes `"A"`, `"AA"` and `"AAA"` are all
satisfied, `findCurrentLevel` returns `"AAA"`, and the theorem yields its
maximality among satisfied codes. -/
theorem c5_deepest_satisfied_code_witness :
    findCurrentLevelF 2 deepEngine = some "AAA" ∧
    isGroupSatisfiedF 2 deepEngine "A" = true ∧
    isGroupSatisfiedF 2 deepEngine "AA" = true ∧
    isGroupSatisfiedF 2 deepEngine "AAA" = true ∧
    (∀ kv ∈ deepEngine.groupRoots, isGroupSatisfiedF 2 deepEngine kv.1 = true →
      strLen kv.1 ≤ strLen "AAA") := by
  refine ⟨by decide, by decide, by decide, by decide, ?_⟩
  exact ((c5_deepest_satisfied_code 2 deepEngine).2 "AAA" (by decide)).2.2

/-! ### C6 — visible groups -/

/-- C6 counterexample: in `gapEngine` the deepest satisfied code is `"AAA"`
and `"AA"` is one of its prefixes, yet the visible groups are exactly
`["A", "AAA"]` — the prefix `"AA"`, which exists in no group, is not
visible, so the visible set is not "exactly every prefix plus the direct
child codes". -/
theorem c6_missing_prefix_counterexample :
    findCurrentLevelF 2 gapEngine = some "AAA" ∧
    strTake "AAA" 2 = "AA" ∧
    ¬ ("AA" ∈ getVisibleGroupsF 2 gapEngine) ∧
    getVisibleGroupsF 2 gapEngine = ["A", "AAA"] := by
  refine ⟨by decide, by decide, by decide, by decide⟩

/-- C6 (amended): with no satisfied code, the visible groups are exactly
the length-1 display group codes; with deepest satisfied code `cc`, a code
is visible iff it is a display group code that is either a nonempty prefix
of `cc` or one of `cc`'s direct child codes in the nearest-ancestor map
(a prefix of `cc` that exists in no group is omitted). -/
theorem c6_visible_codes (fuel : Nat) (e : Engine) :
    (findCurrentLevelF fuel e = none →
      getVisibleGroupsF fuel e = e.groupedCodes.filter (fun g => strLen g = 1)) ∧
    (∀ cc, findCurrentLevelF fuel e = some cc → ∀ g,
      (g ∈ getVisibleGroupsF fuel e ↔
        g ∈ e.groupedCodes ∧
        (g ∈ (List.range (strLen cc)).map (fun i => strTake cc (i + 1)) ∨
         g ∈ smLookupD e.childrenByParent cc))) := by
  constructor
  · intro h
    rw [getVisibleGroupsF, h]
  · intro cc hcc g
    rw [getVisibleGroupsF, hcc]
    simp [List.mem_filter, List.elem_eq_mem]

/-- C6 witness: the amended characterization applied to `gapEngine` with
deepest satisfied code `"AAA"`, instantiated at the visible code `"A"` and
at the non-group prefix `"AA"`. -/
theorem c6_visible_codes_witness :
    (("A" ∈ getVisibleGroupsF 2 gapEngine) ↔
      "A" ∈ gapEngine.groupedCodes ∧
      ("A" ∈ (List.range (strLen "AAA")).map (fun i => strTake "AAA" (i + 1)) ∨
       "A" ∈ smLookupD gapEngine.childrenByParent "AAA")) ∧
    (("AA" ∈ getVisibleGroupsF 2 gapEngine) ↔
      "AA" ∈ gapEngine.groupedCodes ∧
      ("AA" ∈ (List.range (strLen "AAA")).map (fun i => strTake "AAA" (i + 1)) ∨
       "AA" ∈ smLookupD gapEngine.childrenByParent "AAA")) := by
  exact ⟨(c6_visible_codes 2 gapEngine).2 "AAA" (by decide) "A",
    (c6_visible_codes 2 gapEngine).2 "AAA" (by decide) "AA"⟩

/-! ### C7 — mutation frame effects and notification -/

/-- C7: each mutation operation (for any id, known or not) updates the
Selection Set as described, empties the satisfaction and group-satisfaction
caches entirely, leaves the leaf-status cache unchanged, and returns the
notification list delivering, to every registered listener in registration
order, the fully updated engine state. -/
theorem c7_mutations_invalidate_and_notify (e : Engine) (id : String) :
    ((check e id).1.checkedCriteria = fun x => if x = id then true else e.checkedCriteria x) ∧
    (check e id).1.satCache = [] ∧
    (check e id).1.groupSatCache = [] ∧
    (check e id).1.leafCache = e.leafCache ∧
    (check e id).2 = e.listeners.map (fun l => (l, (check e id).1)) ∧
    ((uncheck e id).1.checkedCriteria = fun x => if x = id then false else e.checkedCriteria x) ∧
    (uncheck e id).1.satCache = [] ∧
    (uncheck e id).1.groupSatCache = [] ∧
    (uncheck e id).1.leafCache = e.leafCache ∧
    (uncheck e id).2 = e.listeners.map (fun l => (l, (uncheck e id).1)) ∧
    ((toggle e id).1.checkedCriteria =
      fun x => if x = id then !(e.checkedCriteria id) else e.checkedCriteria x) ∧
    (toggle e id).1.satCache = [] ∧
    (toggle e id).1.groupSatCache = [] ∧
    (toggle e id).1.leafCache = e.leafCache ∧
    (toggle e id).2 = e.listeners.map (fun l => (l, (toggle e id).1)) ∧
    ((reset e).1.checkedCriteria = fun _ => false) ∧
    (reset e).1.satCache = [] ∧
    (reset e).1.groupSatCache = [] ∧
    (reset e).1.leafCache = e.leafCache ∧
    (reset e).2 = e.listeners.map (fun l => (l, (reset e).1)) := by
  refine ⟨rfl, rfl, rfl, rfl, rfl, rfl, rfl, rfl, rfl, rfl, ?_, ?_, ?_, ?_, ?_,
    rfl, rfl, rfl, rfl, rfl⟩
  · by_cases h : e.checkedCriteria id
    · funext x
      simp [toggle, h, uncheck, invalidateCaches]
    · funext x
      simp [toggle, h, check, invalidateCaches]
  · by_cases h : e.checkedCriteria id <;>
      simp [toggle, h, check, uncheck, invalidateCaches]
  · by_cases h : e.checkedCriteria id <;>
      simp [toggle, h, check, uncheck, invalidateCaches]
  · by_cases h : e.checkedCriteria id <;>
      simp [toggle, h, check, uncheck, invalidateCaches]
  · by_cases h : e.checkedCriteria id <;>
      simp [toggle, h, check, uncheck, invalidateCaches, notifyAll]

/-! ### Cache-independence of the read operations -/

theorem isClauseSatisfiedF_congr (e e' : Engine)
    (hm : e.clauseChildrenMap = e'.clauseChildrenMap)
    (hc : e.checkedCriteria = e'.checkedCriteria) :
    ∀ fuel c, isClauseSatisfiedF fuel e c = isClauseSatisfiedF fuel e' c := by
  intro fuel
  induction fuel with
  | zero => intro c; rfl
  | succ fuel ih =>
    intro c
    have hsat : (fun s => isClauseSatisfiedF fuel e s) =
        (fun s => isClauseSatisfiedF fuel e' s) := funext ih
    simp only [isClauseSatisfiedF, isLeafCriterion, clauseChildren, smLookupD, hm, hc, hsat]

theorem isGroupSatisfiedF_congr (e e' : Engine)
    (hm : e.clauseChildrenMap = e'.clauseChildrenMap)
    (hc : e.checkedCriteria = e'.checkedCriteria)
    (hr : e.groupRoots = e'.groupRoots) :
    ∀ fuel code, isGroupSatisfiedF fuel e code = isGroupSatisfiedF fuel e' code := by
  intro fuel code
  have hs : (fun c => isClauseSatisfiedF fuel e c) = (fun c => isClauseSatisfiedF fuel e' c) :=
    funext (isClauseSatisfiedF_congr e e' hm hc fuel)
  simp only [isGroupSatisfiedF, hr]
  cases smLookup e'.groupRoots code with
  | none => rfl
  | some root => exact congrFun hs root

theorem findCurrentLevelF_congr (e e' : Engine)
    (hm : e.clauseChildrenMap = e'.clauseChildrenMap)
    (hc : e.checkedCriteria = e'.checkedCriteria)
    (hr : e.groupRoots = e'.groupRoots) :
    ∀ fuel, findCurrentLevelF fuel e = findCurrentLevelF fuel e' := by
  intro fuel
  rw [findCurrentLevelF_eq_fold, findCurrentLevelF_eq_fold, hr]
  have hs : (fun code => isGroupSatisfiedF fuel e code) =
      (fun code => isGroupSatisfiedF fuel e' code) :=
    funext (isGroupSatisfiedF_congr e e' hm hc hr fuel)
  rw [hs]

theorem getVisibleGroupsF_congr (e e' : Engine)
    (hm : e.clauseChildrenMap = e'.clauseChildrenMap)
    (hc : e.checkedCriteria = e'.checkedCriteria)
    (hr : e.groupRoots = e'.groupRoots)
    (hg : e.groupedCodes = e'.groupedCodes)
    (hcbp : e.childrenByParent = e'.childrenByParent) :
    ∀ fuel, getVisibleGroupsF fuel e = getVisibleGroupsF fuel e' := by
  intro fuel
  rw [getVisibleGroupsF, getVisibleGroupsF,
    findCurrentLevelF_congr e e' hm hc hr fuel, hg, hcbp]

theorem getCheckedLeaves_congr (e e' : Engine)
    (hm : e.clauseChildrenMap = e'.clauseChildrenMap)
    (hc : e.checkedCriteria = e'.checkedCriteria)
    (ha : e.allCriteria = e'.allCriteria) :
    getCheckedLeaves e = getCheckedLeaves e' := by
  rw [getCheckedLeaves, getCheckedLeaves, ha]
  have : (fun c => isLeafCriterion e c && e.checkedCriteria (criterionId c)) =
      (fun c => isLeafCriterion e' c && e'.checkedCriteria (criterionId c)) := by
    funext c
    rw [isLeafCriterion, isLeafCriterion, hm, hc]
  rw [this]

theorem getParent_congr (e e' : Engine)
    (hb : e.criteriaByCode = e'.criteriaByCode) :
    ∀ code, getParent e code = getParent e' code := by
  intro code
  rw [getParent, getParent, getCriterionByCode, getCriterionByCode, hb]

theorem getDirectChildren_congr (e e' : Engine)
    (hb : e.criteriaByCode = e'.criteriaByCode)
    (hcbp : e.childrenByParent = e'.childrenByParent) :
    ∀ code, getDirectChildren e code = getDirectChildren e' code := by
  intro code
  have : (fun c => getCriterionByCode e c) = (fun c => getCriterionByCode e' c) := by
    funext c
    rw [getCriterionByCode, getCriterionByCode, hb]
  rw [getDirectChildren, getDirectChildren, hcbp, this]

/-! ### C8 — idempotence, toggle involution, reset freshness -/

/-- C8: checking an id twice leaves the same Selection Set as checking it
once; toggling an id twice restores the original Selection Set; and after
`resetAll` every read operation agrees with the same read on a freshly
constructed engine over the same input data. -/
theorem c8_idempotence_toggle_reset :
    (∀ (e : Engine) (id : String),
      (check (check e id).1 id).1.checkedCriteria = (check e id).1.checkedCriteria) ∧
    (∀ (e : Engine) (id : String),
      (toggle (toggle e id).1 id).1.checkedCriteria = e.checkedCriteria) ∧
    (∀ (cs : List Criterion) (os : List (String × Outcome)) (e : Engine),
      e.allCriteria = (create cs os).allCriteria →
      e.criteriaByCode = (create cs os).criteriaByCode →
      e.clauseChildrenMap = (create cs os).clauseChildrenMap →
      e.groupRoots = (create cs os).groupRoots →
      e.childrenByParent = (create cs os).childrenByParent →
      e.groupedCodes = (create cs os).groupedCodes →
      ((∀ fuel c, isClauseSatisfiedF fuel (reset e).1 c =
          isClauseSatisfiedF fuel (create cs os) c) ∧
       (∀ fuel code, isGroupSatisfiedF fuel (reset e).1 code =
          isGroupSatisfiedF fuel (create cs os) code) ∧
       (∀ fuel, findCurrentLevelF fuel (reset e).1 = findCurrentLevelF fuel (create cs os)) ∧
       (∀ fuel, getVisibleGroupsF fuel (reset e).1 = getVisibleGroupsF fuel (create cs os)) ∧
       getCheckedLeaves (reset e).1 = getCheckedLeaves (create cs os) ∧
       (∀ code, getParent (reset e).1 code = getParent (create cs os) code) ∧
       (∀ code, getDirectChildren (reset e).1 code = getDirectChildren (create cs os) code))) := by
  refine ⟨?_, ?_, ?_⟩
  · intro e id
    funext x
    by_cases hx : x = id <;> simp [check, invalidateCaches, hx]
  · intro e id
    by_cases h : e.checkedCriteria id
    · funext x
      by_cases hx : x = id <;>
        simp [toggle, check, uncheck, invalidateCaches, h, hx]
    · funext x
      by_cases hx : x = id <;>
        simp [toggle, check, uncheck, invalidateCaches, h, hx]
  · intro cs os e ha hb hm hr hcbp hg
    have hm' : (reset e).1.clauseChildrenMap = (create cs os).clauseChildrenMap := hm
    have hc' : (reset e).1.checkedCriteria = (create cs os).checkedCriteria := rfl
    have hr' : (reset e).1.groupRoots = (create cs os).groupRoots := hr
    have ha' : (reset e).1.allCriteria = (create cs os).allCriteria := ha
    have hb' : (reset e).1.criteriaByCode = (create cs os).criteriaByCode := hb
    have hcbp' : (reset e).1.childrenByParent = (create cs os).childrenByParent := hcbp
    have hg' : (reset e).1.groupedCodes = (create cs os).groupedCodes := hg
    exact ⟨isClauseSatisfiedF_congr _ _ hm' hc',
      isGroupSatisfiedF_congr _ _ hm' hc' hr',
      findCurrentLevelF_congr _ _ hm' hc' hr',
      getVisibleGroupsF_congr _ _ hm' hc' hr' hg' hcbp',
      getCheckedLeaves_congr _ _ hm' hc' ha',
      getParent_congr _ _ hb',
      getDirectChildren_congr _ _ hb' hcbp'⟩

/-- C8 witness: the three parts applied over `deepFixture` — double-check
of `A_1`, double-toggle of `A_1` on `deepEngine`, and agreement of
`findCurrentLevel` after reset with the freshly constructed engine. -/
theorem c8_idempotence_toggle_reset_witness :
    (check (check (create deepFixture []) "A_1").1 "A_1").1.checkedCriteria =
      (check (create deepFixture []) "A_1").1.checkedCriteria ∧
    (toggle (toggle deepEngine "A_1").1 "A_1").1.checkedCriteria =
      deepEngine.checkedCriteria ∧
    findCurrentLevelF 2 (reset deepEngine).1 = findCurrentLevelF 2 (create deepFixture []) := by
  refine ⟨c8_idempotence_toggle_reset.1 _ _, c8_idempotence_toggle_reset.2.1 _ _, ?_⟩
  exact (c8_idempotence_toggle_reset.2.2 deepFixture [] deepEngine
    rfl rfl rfl rfl rfl rfl).2.2.1 2

/-! ### Index-construction lemmas -/

theorem smLookup_eq_none_iff {α : Type} (m : SMap α) (k : String) :
    smLookup m k = none ↔ k ∉ m.map Prod.fst := by
  induction m with
  | nil => simp [smLookup]
  | cons kv rest ih =>
    by_cases h : kv.1 = k
    · simp [smLookup, h]
    · rw [smLookup, if_neg h, ih, List.map_cons, List.mem_cons]
      constructor
      · intro hk hmem
        rcases hmem with hmem | hmem
        · exact h hmem.symm
        · exact hk hmem
      · intro hk hmem
        exact hk (Or.inr hmem)

theorem smPush_keys_mem {α : Type} (m : SMap (List α)) (k : String) (v : α) (x : String) :
    x ∈ (smPush m k v).map Prod.fst ↔ x ∈ m.map Prod.fst ∨ x = k := by
  induction m with
  | nil => simp [smPush]
  | cons kv rest ih =>
    by_cases h : kv.1 = k
    · simp only [smPush, h, if_true, List.map_cons, List.mem_cons]
      constructor
      · intro h'
        rcases h' with h' | h'
        · exact Or.inl (Or.inl h')
        · exact Or.inl (Or.inr h')
      · intro h'
        rcases h' with (h' | h') | h'
        · exact Or.inl h'
        · exact Or.inr h'
        · rw [h', ← h]; exact Or.inl rfl
    · simp only [smPush, h, if_false, List.map_cons, List.mem_cons, ih]
      tauto

theorem smPush_keys_nodup {α : Type} (m : SMap (List α)) (k : String) (v : α)
    (h : (m.map Prod.fst).Nodup) : ((smPush m k v).map Prod.fst).Nodup := by
  induction m with
  | nil => simp [smPush]
  | cons kv rest ih =>
    rw [List.map_cons, List.nodup_cons] at h
    by_cases hk : kv.1 = k
    · simp only [smPush, hk, if_true, List.map_cons, List.nodup_cons]
      exact ⟨hk ▸ h.1, h.2⟩
    · simp only [smPush, hk, if_false, List.map_cons, List.nodup_cons]
      refine ⟨?_, ih h.2⟩
      rw [smPush_keys_mem]
      rintro (h' | h')
      · exact h.1 h'
      · exact hk h'

theorem groupByCode_fold_lookupD :
    ∀ (cs : List Criterion) (m : SMap (List Criterion)) (k : String),
      (smLookup (cs.foldl (fun m c => smPush m c.crit c) m) k).getD [] =
        (smLookup m k).getD [] ++ cs.filter (fun c => c.crit = k) := by
  intro cs
  induction cs with
  | nil => intro m k; simp
  | cons c rest ih =>
    intro m k
    rw [List.foldl_cons, ih]
    by_cases h : c.crit = k
    · rw [smLookup_smPush, if_pos h.symm, List.filter_cons, if_pos (by simp [h])]
      simp only [Option.getD_some, h, List.append_assoc, List.singleton_append]
    · have h2 : ¬ k = c.crit := fun hk => h hk.symm
      rw [smLookup_smPush, if_neg h2, List.filter_cons, if_neg (by simp [h])]

theorem groupByCode_fold_none :
    ∀ (cs : List Criterion) (m : SMap (List Criterion)) (k : String),
      (smLookup (cs.foldl (fun m c => smPush m c.crit c) m) k = none ↔
        (smLookup m k = none ∧ cs.filter (fun c => c.crit = k) = [])) := by
  intro cs
  induction cs with
  | nil => intro m k; simp
  | cons c rest ih =>
    intro m k
    rw [List.foldl_cons, ih, smLookup_smPush]
    by_cases h : c.crit = k
    · rw [if_pos h.symm, List.filter_cons, if_pos (by simp [h])]
      simp
    · have h2 : ¬ k = c.crit := fun hk => h hk.symm
      rw [if_neg h2, List.filter_cons, if_neg (by simp [h])]

theorem groupByCode_lookup_of_mem (cs : List Criterion) (k : String)
    (h : cs.filter (fun c => c.crit = k) ≠ []) :
    smLookup (groupByCode cs) k = some (cs.filter (fun c => c.crit = k)) := by
  have h1 := groupByCode_fold_lookupD cs [] k
  have h2 := groupByCode_fold_none cs [] k
  rw [groupByCode]
  cases hl : smLookup (cs.foldl (fun m c => smPush m c.crit c) []) k with
  | none =>
    rw [h2] at hl
    exact absurd hl.2 h
  | some v =>
    rw [hl] at h1
    simp only [Option.getD_some, smLookup, Option.getD_none, List.nil_append] at h1
    rw [h1]

theorem groupByCode_lookup_none (cs : List Criterion) (k : String)
    (h : cs.filter (fun c => c.crit = k) = []) :
    smLookup (groupByCode cs) k = none := by
  rw [groupByCode, groupByCode_fold_none]
  exact ⟨rfl, h⟩

theorem groupByCode_keys_nodup (cs : List Criterion) :
    ((groupByCode cs).map Prod.fst).Nodup := by
  rw [groupByCode]
  have : ∀ (l : List Criterion) (m : SMap (List Criterion)),
      (m.map Prod.fst).Nodup →
      ((l.foldl (fun m c => smPush m c.crit c) m).map Prod.fst).Nodup := by
    intro l
    induction l with
    | nil => intro m h; exact h
    | cons c rest ih =>
      intro m h
      rw [List.foldl_cons]
      exact ih _ (smPush_keys_nodup m c.crit c h)
  exact this cs [] (by simp)

theorem injectOutcomes_lookup :
    ∀ (os : List (String × Outcome)) (acc : List Criterion × SMap (List Criterion))
      (k : String),
      smLookup (injectOutcomes acc os).2 k =
        match smLookup acc.2 k with
        | some v => some v
        | none => (smLookup os k).map (fun o => [outcomeCriterion k o]) := by
  intro os
  induction os with
  | nil =>
    intro acc k
    rw [injectOutcomes, List.foldl_nil]
    cases smLookup acc.2 k <;> simp [smLookup]
  | cons kv rest ih =>
    intro acc k
    rw [injectOutcomes, List.foldl_cons, ← injectOutcomes]
    by_cases hl : (smLookup acc.2 kv.1).isSome
    · rw [if_pos hl, ih]
      by_cases hk : kv.1 = k
      · subst hk
        obtain ⟨v, hv⟩ := Option.isSome_iff_exists.mp hl
        rw [hv]
      · rw [smLookup, if_neg hk]
    · rw [if_neg hl]
      have hnone : smLookup acc.2 kv.1 = none := Option.not_isSome_iff_eq_none.mp hl
      rw [ih]
      simp only [smLookup_append]
      by_cases hk : kv.1 = k
      · subst hk
        rw [hnone]
        simp [smLookup]
      · rw [smLookup, if_neg hk]
        cases smLookup acc.2 k with
        | none => simp [smLookup, hk]
        | some v => simp [smLookup, hk]

theorem injectOutcomes_mem :
    ∀ (os : List (String × Outcome)) (acc : List Criterion × SMap (List Criterion))
      (x : Criterion), x ∈ (injectOutcomes acc os).1 →
      x ∈ acc.1 ∨ smLookup acc.2 x.crit = none := by
  intro os
  induction os with
  | nil =>
    intro acc x hx
    rw [injectOutcomes, List.foldl_nil] at hx
    exact Or.inl hx
  | cons kv rest ih =>
    intro acc x hx
    rw [injectOutcomes, List.foldl_cons, ← injectOutcomes] at hx
    by_cases hl : (smLookup acc.2 kv.1).isSome
    · rw [if_pos hl] at hx
      exact ih acc x hx
    · rw [if_neg hl] at hx
      have hnone : smLookup acc.2 kv.1 = none := Option.not_isSome_iff_eq_none.mp hl
      rcases ih _ x hx with hmem | hlk
      · rcases List.mem_append.mp hmem with hmem | hmem
        · exact Or.inl hmem
        · simp only [List.mem_singleton] at hmem
          subst hmem
          exact Or.inr hnone
      · exact Or.inr (smLookup_eq_none_of_append _ _ _ hlk)

theorem injectOutcomes_keys_nodup :
    ∀ (os : List (String × Outcome)) (acc : List Criterion × SMap (List Criterion)),
      ((acc.2.map Prod.fst).Nodup) → (((injectOutcomes acc os).2.map Prod.fst).Nodup) := by
  intro os
  induction os with
  | nil =>
    intro acc h
    rw [injectOutcomes, List.foldl_nil]
    exact h
  | cons kv rest ih =>
    intro acc h
    rw [injectOutcomes, List.foldl_cons, ← injectOutcomes]
    by_cases hl : (smLookup acc.2 kv.1).isSome
    · rw [if_pos hl]
      exact ih acc h
    · rw [if_neg hl]
      have hnone : smLookup acc.2 kv.1 = none := Option.not_isSome_iff_eq_none.mp hl
      refine ih _ ?_
      simp only [List.map_append, List.map_cons, List.map_nil]
      rw [List.nodup_append]
      refine ⟨h, List.nodup_singleton _, ?_⟩
      intro a ha hb
      simp only [List.mem_singleton] at hb
      subst hb
      exact (smLookup_eq_none_iff acc.2 kv.1).mp hnone ha

theorem buildGroupRoots_fold_none :
    ∀ (l : List Criterion) (acc : SMap Criterion) (k : String),
      smLookup acc k = none → (∀ x ∈ l, x.crit = k → x.parent_clause ≠ 0) →
      smLookup (l.foldl
        (fun roots c =>
          if c.parent_clause = 0 && (smLookup roots c.crit).isNone then
            roots ++ [(c.crit, c)]
          else roots) acc) k = none := by
  intro l
  induction l with
  | nil => intro acc k h _; exact h
  | cons c rest ih =>
    intro acc k h hl
    rw [List.foldl_cons]
    refine ih _ k ?_ (fun x hx => hl x (List.mem_cons_of_mem c hx))
    by_cases hcond : (c.parent_clause = 0 && (smLookup acc c.crit).isNone) = true
    · rw [if_pos hcond]
      have hpc : c.parent_clause = 0 := by
        rw [Bool.and_eq_true] at hcond
        exact decide_eq_true_eq.mp hcond.1
      have hck : c.crit ≠ k := by
        intro hck
        exact hl c (List.mem_cons_self c rest) hck hpc
      rw [smLookup_append, h]
      simp [smLookup, hck]
    · rw [if_neg hcond]
      exact h

theorem buildGroupRoots_none (l : List Criterion) (k : String)
    (hl : ∀ x ∈ l, x.crit = k → x.parent_clause ≠ 0) :
    smLookup (buildGroupRoots l) k = none := by
  rw [buildGroupRoots]
  exact buildGroupRoots_fold_none l [] k rfl hl

theorem string_ext (a b : String) (h : a.data = b.data) : a = b := by
  cases a
  cases b
  exact congrArg String.mk h

theorem criterionId_syntheticRoot (k : String) (tl : List Criterion) :
    criterionId (syntheticRoot k tl) = k ++ "_0" := by
  simp only [criterionId, syntheticRoot]
  apply string_ext
  show (k.data ++ "_".data) ++ (toString (0 : Nat)).data = k.data ++ "_0".data
  rw [List.append_assoc]
  rfl

theorem criterionId_syntheticRoot_inj (k k' : String)
    (tl tl' : List Criterion)
    (h : criterionId (syntheticRoot k tl) = criterionId (syntheticRoot k' tl')) :
    k = k' := by
  rw [criterionId_syntheticRoot, criterionId_syntheticRoot] at h
  have hd : k.data ++ "_0".data = k'.data ++ "_0".data := congrArg String.data h
  exact string_ext _ _ (List.append_cancel_right hd)

theorem addSyntheticRoots_roots_mono :
    ∀ (l : SMap (List Criterion)) (acc : SMap Criterion × SMap (List Criterion))
      (k : String) (v : Criterion), smLookup acc.1 k = some v →
      smLookup (addSyntheticRoots l acc).1 k = some v := by
  intro l
  induction l with
  | nil => intro acc k v h; exact h
  | cons kv rest ih =>
    intro acc k v h
    rw [addSyntheticRoots, List.foldl_cons, ← addSyntheticRoots]
    by_cases hc : (smLookup acc.1 kv.1).isSome
    · rw [if_pos hc]
      exact ih acc k v h
    · rw [if_neg hc]
      refine ih _ k v ?_
      simp only [smLookup_append, h]

theorem addSyntheticRoots_ccm_preserve :
    ∀ (l : SMap (List Criterion)) (acc : SMap Criterion × SMap (List Criterion))
      (K : String),
      (∀ kv ∈ l, criterionId (syntheticRoot kv.1 (groupTopLevel kv.2)) ≠ K) →
      smLookup (addSyntheticRoots l acc).2 K = smLookup acc.2 K := by
  intro l
  induction l with
  | nil => intro acc K _; rfl
  | cons kv rest ih =>
    intro acc K hK
    rw [addSyntheticRoots, List.foldl_cons, ← addSyntheticRoots]
    by_cases hc : (smLookup acc.1 kv.1).isSome
    · rw [if_pos hc]
      exact ih acc K (fun kv' h' => hK kv' (List.mem_cons_of_mem kv h'))
    · rw [if_neg hc]
      rw [ih _ K (fun kv' h' => hK kv' (List.mem_cons_of_mem kv h'))]
      simp only [smLookup_smSet]
      rw [if_neg]
      intro hKe
      exact hK kv (List.mem_cons_self kv rest) hKe.symm

theorem addSyntheticRoots_process :
    ∀ (l : SMap (List Criterion)) (acc : SMap Criterion × SMap (List Criterion))
      (k : String) (items : List Criterion),
      (k, items) ∈ l → (l.map Prod.fst).Nodup → smLookup acc.1 k = none →
      smLookup (addSyntheticRoots l acc).1 k =
        some (syntheticRoot k (groupTopLevel items)) ∧
      smLookup (addSyntheticRoots l acc).2
          (criterionId (syntheticRoot k (groupTopLevel items))) =
        some (groupTopLevel items) := by
  intro l
  induction l with
  | nil => intro acc k items h; exact absurd h (List.not_mem_nil _)
  | cons kv rest ih =>
    intro acc k items hmem hnodup hnone
    rw [List.map_cons, List.nodup_cons] at hnodup
    rcases List.mem_cons.mp hmem with hhead | htail
    · -- kv is the group being processed
      have hk : kv.1 = k := by rw [← hhead]
      have hitems : kv.2 = items := by rw [← hhead]
      rw [addSyntheticRoots, List.foldl_cons, ← addSyntheticRoots]
      have hc : ¬ (smLookup acc.1 kv.1).isSome := by
        rw [hk, hnone]
        simp
      rw [if_neg hc]
      have hrest_keys : ∀ kv' ∈ rest, kv'.1 ≠ k := by
        intro kv' h' hk'
        refine hnodup.1 ?_
        rw [hk, ← hk']
        exact List.mem_map_of_mem Prod.fst h' 
      constructor
      · refine addSyntheticRoots_roots_mono rest _ k _ ?_
        simp only [smLookup_append, hnone]
        rw [hk, hitems]
        simp [smLookup]
      · rw [addSyntheticRoots_ccm_preserve rest _ _ ?_]
        · rw [hk, hitems, smLookup_smSet, if_pos rfl]
        · intro kv' h' hid
          exact hrest_keys kv' h' (criterionId_syntheticRoot_inj _ _ _ _ hid)
    · -- the group being processed is further in
      have hkne : kv.1 ≠ k := by
        intro hk
        refine hnodup.1 ?_
        rw [hk]
        exact List.mem_map_of_mem Prod.fst htail
      rw [addSyntheticRoots, List.foldl_cons, ← addSyntheticRoots]
      by_cases hc : (smLookup acc.1 kv.1).isSome
      · rw [if_pos hc]
        exact ih acc k items htail hnodup.2 hnone
      · rw [if_neg hc]
        refine ih _ k items htail hnodup.2 ?_
        simp only [smLookup_append, hnone]
        simp [smLookup, hkne]

/-! ### C9 — dangling in-group parent references -/

/-- C9 counterexample: in `orphanFixture` the group `A` has an explicit root
(clause 1), and the member with the dangling reference (clause 2,
`parent_clause` 99) ends up in no adjacency entry at all — the adjacency is
empty, checking the dangling member alone leaves the group unsatisfied, and
checking the root alone satisfies it: the dangling member does not
participate in the group's root-level evaluation; it is dropped. -/
theorem c9_dangling_member_dropped_counterexample :
    (create orphanFixture []).clauseChildrenMap = [] ∧
    smLookup (create orphanFixture []).groupRoots "A" = some ⟨"A", 1, 0, "OR", false⟩ ∧
    isGroupSatisfiedF 2 (check (create orphanFixture []) "A_2").1 "A" = false ∧
    isGroupSatisfiedF 2 (check (create orphanFixture []) "A_1").1 "A" = true := by
  refine ⟨by decide, by decide, by decide, by decide⟩

/-- C9 (amended): if the group of a Criterion with a dangling nonzero
`parent_clause` has no explicit root (no member with empty/zero
`parent_clause`), index construction synthesizes a root for the group and
the dangling Criterion becomes one of its direct children — a root-level
member.  (When the group has an explicit root, the dangling Criterion is
instead dropped from the adjacency; construction never faults in either
case.) -/
theorem c9_dangling_parent_in_rootless_group
    (cs : List Criterion) (os : List (String × Outcome)) (c : Criterion)
    (hc : c ∈ cs) (_hpc : c.parent_clause ≠ 0)
    (hnomatch : ∀ p ∈ cs, p.crit = c.crit → p.clause ≠ c.parent_clause)
    (hnoroot : ∀ p ∈ cs, p.crit = c.crit → p.parent_clause ≠ 0) :
    ∃ root, smLookup (create cs os).groupRoots c.crit = some root ∧
      root.synthetic = true ∧ root.clause = 0 ∧
      c ∈ clauseChildren (create cs os) root := by
  have hc_mem_items : c ∈ cs.filter (fun p => p.crit = c.crit) :=
    List.mem_filter.mpr ⟨hc, by simp⟩
  have hfil_ne : cs.filter (fun p => p.crit = c.crit) ≠ [] :=
    List.ne_nil_of_mem hc_mem_items
  have hby0 : smLookup (groupByCode cs) c.crit =
      some (cs.filter (fun p => p.crit = c.crit)) :=
    groupByCode_lookup_of_mem cs c.crit hfil_ne
  have hby : smLookup (injectOutcomes (cs, groupByCode cs) os).2 c.crit =
      some (cs.filter (fun p => p.crit = c.crit)) := by
    rw [injectOutcomes_lookup os (cs, groupByCode cs) c.crit]
    rw [hby0]
  have hpair : (c.crit, cs.filter (fun p => p.crit = c.crit)) ∈
      (injectOutcomes (cs, groupByCode cs) os).2 :=
    smLookup_mem _ _ _ hby
  have hnodup : (((injectOutcomes (cs, groupByCode cs) os).2).map Prod.fst).Nodup :=
    injectOutcomes_keys_nodup os (cs, groupByCode cs) (groupByCode_keys_nodup cs)
  have hroots0 : smLookup (buildGroupRoots (injectOutcomes (cs, groupByCode cs) os).1)
      c.crit = none := by
    refine buildGroupRoots_none _ c.crit ?_
    intro x hx hxk
    rcases injectOutcomes_mem os (cs, groupByCode cs) x hx with hmem | hlk
    · exact hnoroot x hmem hxk
    · rw [hxk, hby0] at hlk
      cases hlk
  have happ := addSyntheticRoots_process (injectOutcomes (cs, groupByCode cs) os).2
    (buildGroupRoots (injectOutcomes (cs, groupByCode cs) os).1,
     buildClauseChildrenMap (groupByCode cs) cs)
    c.crit (cs.filter (fun p => p.crit = c.crit)) hpair hnodup hroots0
  refine ⟨syntheticRoot c.crit (groupTopLevel (cs.filter (fun p => p.crit = c.crit))),
    happ.1, rfl, rfl, ?_⟩
  rw [clauseChildren, smLookupD]
  rw [show (create cs os).clauseChildrenMap =
    (addSyntheticRoots (injectOutcomes (cs, groupByCode cs) os).2
      (buildGroupRoots (injectOutcomes (cs, groupByCode cs) os).1,
       buildClauseChildrenMap (groupByCode cs) cs)).2 from rfl]
  rw [happ.2]
  simp only [Option.getD_some]
  rw [groupTopLevel, List.mem_filter]
  refine ⟨hc_mem_items, ?_⟩
  have hnotmem : c.parent_clause ∉
      (cs.filter (fun p => p.crit = c.crit)).map (fun p => p.clause) := by
    intro hmem
    obtain ⟨p, hp, hpe⟩ := List.mem_map.mp hmem
    have hp' := List.mem_filter.mp hp
    exact hnomatch p hp'.1 (decide_eq_true_eq.mp hp'.2) hpe
  simp [List.elem_eq_mem, hnotmem]

/-- C9 witness: the amended theorem applied to `rootlessFixture`'s dangling
member (clause 3, `parent_clause` 99): the group `B` gets a synthetic root
and clause 3 is one of its children. -/
theorem c9_dangling_parent_in_rootless_group_witness :
    smLookup (create rootlessFixture []).groupRoots "B" =
      some ⟨"B", 0, 0, "OR", true⟩ ∧
    ⟨"B", 3, 99, "OR", false⟩ ∈
      clauseChildren (create rootlessFixture []) ⟨"B", 0, 0, "OR", true⟩ := by
  obtain ⟨root, hroot, _, _, hmem⟩ := c9_dangling_parent_in_rootless_group
    rootlessFixture [] ⟨"B", 3, 99, "OR", false⟩ (by decide) (by decide)
    (by decide) (by decide)
  have hroot' : root = ⟨"B", 0, 0, "OR", true⟩ := by
    have h2 : smLookup (create rootlessFixture []).groupRoots "B" =
        some ⟨"B", 0, 0, "OR", true⟩ := by decide
    rw [h2] at hroot
    cases hroot
    rfl
  rw [hroot'] at hmem
  exact ⟨by decide, hmem⟩

/-! ### C10 — exact-prefix parent lookup -/

theorem filter_head_eq_find (p : Criterion → Bool) (cs : List Criterion) :
    (cs.filter p).head? = cs.find? p := by
  induction cs with
  | nil => rfl
  | cons c rest ih =>
    by_cases h : p c
    · simp [List.filter_cons, h, List.find?_cons_of_pos]
    · simp [List.filter_cons, h, List.find?_cons_of_neg, ih]

/-- C10: `getParent` returns `none` for codes of length at most 1; for a
longer code it returns the first input criterion whose `crit` equals the
code with its last character removed — falling back to the synthetic
outcome criterion injected for that exact shorter code, and `none` when
neither exists.  It never consults any shorter ancestor code. -/
theorem c10_parent_exact_shorter_code (cs : List Criterion)
    (os : List (String × Outcome)) (code : String) :
    (getParent (create cs os) code =
      if strLen code ≤ 1 then none
      else
        match cs.find? (fun p => p.crit = strDropLast code) with
        | some p => some p
        | none => (smLookup os (strDropLast code)).map
            (fun o => outcomeCriterion (strDropLast code) o)) ∧
    getParent (create gapFixture []) "AAA" = none ∧
    "AAA" ∈ smLookupD (create gapFixture []).childrenByParent "A" := by
  refine ⟨?_, by decide, by decide⟩
  by_cases hlen : strLen code ≤ 1
  · rw [getParent, if_pos hlen, if_pos hlen]
  · rw [getParent, if_neg hlen, if_neg hlen]
    rw [getCriterionByCode]
    rw [show (create cs os).criteriaByCode = (injectOutcomes (cs, groupByCode cs) os).2
      from rfl]
    rw [injectOutcomes_lookup os (cs, groupByCode cs) (strDropLast code)]
    cases hg : smLookup (groupByCode cs) (strDropLast code) with
    | some v =>
      have hv : v = cs.filter (fun p => p.crit = strDropLast code) := by
        have h1 := groupByCode_fold_lookupD cs [] (strDropLast code)
        rw [groupByCode] at hg
        rw [hg] at h1
        simpa using h1
      simp only [hv]
      rw [filter_head_eq_find]
      cases hfind : cs.find? (fun p => p.crit = strDropLast code) with
      | some p => simp
      | none =>
        exfalso
        have hfil : cs.filter (fun p => p.crit = strDropLast code) = [] := by
          rw [← filter_head_eq_find] at hfind
          exact List.head?_eq_none_iff.mp hfind
        rw [groupByCode] at hg
        rw [(groupByCode_fold_none cs [] (strDropLast code)).mpr ⟨rfl, hfil⟩] at hg
        cases hg
    | none =>
      have hfil : cs.filter (fun p => p.crit = strDropLast code) = [] := by
        rw [groupByCode] at hg
        exact ((groupByCode_fold_none cs [] (strDropLast code)).mp hg).2
      have hfind : cs.find? (fun p => p.crit = strDropLast code) = none := by
        rw [← filter_head_eq_find, hfil]
        rfl
      rw [hfind]
      cases ho : smLookup os (strDropLast code) <;> simp
